import Mathlib

/-!
Verification of the bootbud fastboot client core.

The development shallowly embeds the three components the spec's claims are
about, each translated from the Rust source:

* `Fastboot.Protocol` — the wire codec of `src/fastboot/protocol.rs`:
  `bytes_slice_null`, `FastBootResponse::from_parts` and
  `FastBootResponse::from_bytes`.  Byte strings are `List Nat` (each entry a
  byte value).  Rust `&str` values at this layer are represented by their
  UTF-8 bytes, and the two `std::str::from_utf8(..).unwrap()` calls in
  `from_bytes` are modelled exactly: an input whose relevant region is not
  valid UTF-8 makes the decoder end in the distinguished `panicked` outcome.

* `Fastboot.Uploader` — the pipelined upload loop of
  `FastbootWebUsb::write_out_stream` in `src/fastboot/webusb.rs`.  The byte
  source is the list of sizes successive `read` calls return, a transport
  whose writes all succeed is a function `reports` giving the byte count the
  i-th submitted transfer resolves to, and the run also produces the list of
  submit/retire events so that window and FIFO properties can be stated.

* `Fastboot.Session` — the client session loops of `src/fastboot/mod.rs`
  (`handle_responses`, `get_var`, `download`, `get_all_vars`,
  `send_command`).  Payload strings at this layer are `List Char`, mirroring
  Rust `String`; the response sequence a device produces is a list.
-/

namespace Fastboot

namespace Protocol

/-- Rust `fn bytes_slice_null` of protocol.rs: truncate a byte slice at the first
0x00 byte (`bytes.iter().position(|&b| b == 0x00)`). -/
def bytes_slice_null (bytes : List Nat) : List Nat :=
  match bytes.findIdx? (fun b => b == 0) with
  | some pos => bytes.take pos
  | none => bytes

/-- Value of an ASCII hexadecimal digit, as accepted by Rust
`char::to_digit(16)`: `0-9`, `a-f`, `A-F`. -/
def hexDigitVal (b : Nat) : Option Nat :=
  if 0x30 ≤ b ∧ b ≤ 0x39 then some (b - 0x30)
  else if 0x61 ≤ b ∧ b ≤ 0x66 then some (b - 0x61 + 10)
  else if 0x41 ≤ b ∧ b ≤ 0x46 then some (b - 0x41 + 10)
  else none

/-- The digit-accumulation loop of `u32::from_str_radix(s, 16)`: each step is
`result.checked_mul(16)` then `.checked_add(digit)`, failing on a non-digit
byte or on u32 overflow. -/
def parseHexLoop : List Nat → Nat → Option Nat
  | [], acc => some acc
  | b :: rest, acc =>
    match hexDigitVal b with
    | none => none
    | some d =>
      if acc * 16 + d < 2 ^ 32 then parseHexLoop rest (acc * 16 + d) else none

/-- Rust `u32::from_str_radix(s, 16)` over the bytes of `s`: an empty string
or a lone sign character is an error; a leading `+` is stripped (for an
unsigned type a leading `-` is not a sign and fails as an invalid digit);
the remaining bytes are parsed by `parseHexLoop`. -/
def from_str_radix_16_u32 (s : List Nat) : Option Nat :=
  match s with
  | [] => none
  | [b] => if b = 0x2B ∨ b = 0x2D then none else parseHexLoop [b] 0
  | b :: rest => if b = 0x2B then parseHexLoop rest 0 else parseHexLoop (b :: rest) 0

/-- Rust `enum FastBootResponseParseError` of protocol.rs. -/
inductive FastBootResponseParseError
  | UnknownReply
  | DataLength
deriving DecidableEq, Repr

/-- Rust `enum FastBootResponse` of protocol.rs; payloads are the UTF-8 bytes of
the Rust strings. -/
inductive FastBootResponse
  | Okay (s : List Nat)
  | Info (s : List Nat)
  | Fail (s : List Nat)
  | Data (n : Nat)
deriving DecidableEq, Repr

/-- The bytes of the ASCII tag `"OKAY"`. -/
def tagOKAY : List Nat := [0x4F, 0x4B, 0x41, 0x59]

/-- The bytes of the ASCII tag `"INFO"`. -/
def tagINFO : List Nat := [0x49, 0x4E, 0x46, 0x4F]

/-- The bytes of the ASCII tag `"FAIL"`. -/
def tagFAIL : List Nat := [0x46, 0x41, 0x49, 0x4C]

/-- The bytes of the ASCII tag `"DATA"`. -/
def tagDATA : List Nat := [0x44, 0x41, 0x54, 0x41]

/-- The four recognised response tags. -/
def tagList : List (List Nat) := [tagOKAY, tagINFO, tagFAIL, tagDATA]

/-- Rust `FastBootResponse::from_parts`: dispatch on the tag string; for `DATA`
parse the payload as hexadecimal u32, any parse failure becoming
`DataLength`; unknown tags give `UnknownReply`. -/
def from_parts (resp data : List Nat) :
    Except FastBootResponseParseError FastBootResponse :=
  if resp = tagOKAY then .ok (.Okay data)
  else if resp = tagINFO then .ok (.Info data)
  else if resp = tagFAIL then .ok (.Fail data)
  else if resp = tagDATA then
    match from_str_radix_16_u32 data with
    | some n => .ok (.Data n)
    | none => .error .DataLength
  else .error .UnknownReply

/-- A UTF-8 continuation byte (`0x80..=0xBF`). -/
def isUtf8Cont (b : Nat) : Bool := 0x80 ≤ b && b ≤ 0xBF

/-- Validity of a byte sequence as UTF-8, exactly the condition under which
Rust `std::str::from_utf8` succeeds (shortest-form sequences only, no
surrogates, maximum scalar value 0x10FFFF). -/
def utf8Valid : List Nat → Bool
  | [] => true
  | b :: rest =>
    if b ≤ 0x7F then utf8Valid rest
    else if 0xC2 ≤ b && b ≤ 0xDF then
      match rest with
      | b1 :: r => isUtf8Cont b1 && utf8Valid r
      | [] => false
    else if b = 0xE0 then
      match rest with
      | b1 :: b2 :: r => (0xA0 ≤ b1 && b1 ≤ 0xBF) && isUtf8Cont b2 && utf8Valid r
      | _ => false
    else if (0xE1 ≤ b && b ≤ 0xEC) || b = 0xEE || b = 0xEF then
      match rest with
      | b1 :: b2 :: r => isUtf8Cont b1 && isUtf8Cont b2 && utf8Valid r
      | _ => false
    else if b = 0xED then
      match rest with
      | b1 :: b2 :: r => (0x80 ≤ b1 && b1 ≤ 0x9F) && isUtf8Cont b2 && utf8Valid r
      | _ => false
    else if b = 0xF0 then
      match rest with
      | b1 :: b2 :: b3 :: r =>
        (0x90 ≤ b1 && b1 ≤ 0xBF) && isUtf8Cont b2 && isUtf8Cont b3 && utf8Valid r
      | _ => false
    else if 0xF1 ≤ b && b ≤ 0xF3 then
      match rest with
      | b1 :: b2 :: b3 :: r =>
        isUtf8Cont b1 && isUtf8Cont b2 && isUtf8Cont b3 && utf8Valid r
      | _ => false
    else if b = 0xF4 then
      match rest with
      | b1 :: b2 :: b3 :: r =>
        (0x80 ≤ b1 && b1 ≤ 0x8F) && isUtf8Cont b2 && isUtf8Cont b3 && utf8Valid r
      | _ => false
    else false

/-- Outcome of `FastBootResponse::from_bytes`.  `panicked` models a Rust
panic raised by one of the two `std::str::from_utf8(..).unwrap()` calls. -/
inductive DecodeResult
  | ok (r : FastBootResponse)
  | err (e : FastBootResponseParseError)
  | panicked
deriving DecidableEq, Repr

/-- Rust `FastBootResponse::from_bytes`: inputs shorter than 4 bytes are
`UnknownReply`; otherwise the first 4 bytes and the null-truncated remainder
are converted from UTF-8 with `.unwrap()` (a panic if either region is not
valid UTF-8) and handed to `from_parts`. -/
def from_bytes (bytes : List Nat) : DecodeResult :=
  if bytes.length < 4 then .err .UnknownReply
  else if utf8Valid (bytes.take 4) && utf8Valid (bytes_slice_null (bytes.drop 4)) then
    match from_parts (bytes.take 4) (bytes_slice_null (bytes.drop 4)) with
    | .ok r => .ok r
    | .error e => .err e
  else .panicked

/-- Modelled from the spec: a string is "a valid hexadecimal representation
of an unsigned 32-bit integer" when, after stripping an optional leading
`+` sign (`stripPlus`), it is a nonempty run of hex digits whose value fits
in 32 bits.  These three definitions follow the spec's words and are only
used to compare spec and code on the `DATA` payload parse. -/
def stripPlus (s : List Nat) : List Nat :=
  match s with
  | b :: rest => if b = 0x2B then rest else s
  | [] => []

/-- Spec-side predicate: the byte is an ASCII hex digit. -/
def isHexDigitByte (b : Nat) : Bool := (hexDigitVal b).isSome

/-- Spec-side value of a hex digit string starting from an accumulator
(junk digits read as 0; only used under `isHexU32`). -/
def hexValueFrom (acc : Nat) (s : List Nat) : Nat :=
  s.foldl (fun a b => a * 16 + (hexDigitVal b).getD 0) acc

/-- Spec-side value of a hex digit string. -/
def hexValue (s : List Nat) : Nat := hexValueFrom 0 s

/-- Spec-side predicate: nonempty, all hex digits, value fits in u32. -/
def isHexU32 (s : List Nat) : Bool :=
  !s.isEmpty && s.all isHexDigitByte && decide (hexValue s < 2 ^ 32)

end Protocol

namespace Uploader

/-- Observable events of one `write_out_stream` run: the i-th chunk being
submitted to the transport, and the i-th submitted transfer being awaited
and retired. -/
inductive Ev
  | submit (idx : Nat)
  | retire (idx : Nat)
deriving DecidableEq, Repr

/-- Rust `VecDeque::pop_back`: remove and return the last element. -/
def popBack {α : Type} : List α → Option (α × List α)
  | [] => none
  | [x] => some (x, [])
  | x :: y :: rest =>
    match popBack (y :: rest) with
    | some (j, q) => some (j, x :: q)
    | none => none

/-- The main read/submit loop of `write_out_stream`.  `chunks` is the list of
sizes the successive `read` calls return (the loop stops at the list's end —
the source's zero-length read — or at an explicit 0 entry); `idx` numbers
submissions; `queued` holds the submission indices of in-flight transfers,
newest first (`push_front`); `reports j` is the byte count transfer `j`
resolves to when awaited (every write succeeds, the case the claims are
about).  Before submitting, if more than 3 transfers are queued the oldest
(`pop_back`) is awaited and its byte count added to `total`. -/
def wosLoop (reports : Nat → Nat) :
    List Nat → Nat → Nat → List Nat → Nat × List Nat × List Ev
  | [], _idx, total, queued => (total, queued, [])
  | sz :: rest, idx, total, queued =>
    if sz = 0 then (total, queued, [])
    else if 3 < queued.length then
      match popBack queued with
      | some (j, q) =>
        let out := wosLoop reports rest (idx + 1) (total + reports j) (idx :: q)
        (out.1, out.2.1, Ev.retire j :: Ev.submit idx :: out.2.2)
      | none => (total, queued, [])
    else
      let out := wosLoop reports rest (idx + 1) total (idx :: queued)
      (out.1, out.2.1, Ev.submit idx :: out.2.2)

/-- The drain loop of `write_out_stream` (`while !queued.is_empty()` popping
from the back) processes the queue oldest-first, i.e. the reverse of the
front-to-back queue list. -/
def wosDrainList (reports : Nat → Nat) : Nat → List Nat → Nat × List Ev
  | total, [] => (total, [])
  | total, j :: rest =>
    let out := wosDrainList reports (total + reports j) rest
    (out.1, Ev.retire j :: out.2)

/-- The drain phase on the queue as held by the loop (newest first). -/
def wosDrain (reports : Nat → Nat) (total : Nat) (queued : List Nat) :
    Nat × List Ev :=
  wosDrainList reports total queued.reverse

/-- Rust `FastbootWebUsb::write_out_stream` on the success path: returns the
final byte total and the submit/retire event trace. -/
def write_out_stream (reports : Nat → Nat) (chunks : List Nat) :
    Nat × List Ev :=
  let m := wosLoop reports chunks 0 0 []
  let d := wosDrain reports m.1 m.2.1
  (d.1, m.2.2 ++ d.2)

/-- Trace validity checker: scanning the events with `sub` submissions and
`ret` retirements so far, every submission carries the next submission
index, at most 4 transfers are outstanding after each submission, and every
retirement retires exactly the oldest still-outstanding transfer (strict
FIFO in submission order). -/
def checkTrace : Nat → Nat → List Ev → Bool
  | _sub, _ret, [] => true
  | sub, ret, Ev.submit i :: rest =>
    decide (i = sub) && decide (sub + 1 ≤ ret + 4) && checkTrace (sub + 1) ret rest
  | sub, ret, Ev.retire j :: rest =>
    decide (j = ret) && decide (ret < sub) && checkTrace sub (ret + 1) rest

/-- The queue contents maintained by the loop: submission indices `s - 1`
down to `r` (newest first). -/
def descRange (r : Nat) : Nat → List Nat
  | 0 => []
  | s + 1 => if r ≤ s then s :: descRange r s else []

/-- Ascending run of indices `r, r+1, ..., r+n-1`. -/
def ascRange (r : Nat) : Nat → List Nat
  | 0 => []
  | n + 1 => r :: ascRange (r + 1) n

/-- Sum of the reported byte counts of transfers `0..r`. -/
def sumR (reports : Nat → Nat) (r : Nat) : Nat :=
  ((List.range r).map reports).sum

/-- Number of chunks the loop actually submits: the reads up to the first
zero-length one. -/
def nzLen (chunks : List Nat) : Nat :=
  (chunks.takeWhile (fun c => c != 0)).length

end Uploader

/-- Decidable equality for `Except`, used to evaluate session-layer results
on concrete inputs. -/
instance {ε α : Type} [DecidableEq ε] [DecidableEq α] : DecidableEq (Except ε α) :=
  fun x y =>
    match x, y with
    | .ok a, .ok b =>
      if h : a = b then isTrue (h ▸ rfl) else isFalse fun hc => h (Except.ok.inj hc)
    | .ok _, .error _ => isFalse fun hc => Except.noConfusion hc
    | .error _, .ok _ => isFalse fun hc => Except.noConfusion hc
    | .error e, .error f =>
      if h : e = f then isTrue (h ▸ rfl) else isFalse fun hc => h (Except.error.inj hc)

namespace Session

/-- Rust `String` payloads at the session layer. -/
abbrev Str := List Char

/-- Rust `enum FastBootError` of mod.rs.  The `Transfer` payload (a boxed dyn
error) carries no information the claims depend on and is dropped. -/
inductive FastBootError
  | Transfer
  | FastbootFailed (reason : Str)
  | FastbootUnexpectedReply
  | FastbootParseError (e : Protocol.FastBootResponseParseError)
deriving DecidableEq

/-- Rust `enum FastBootResponse` as consumed by the session loops, with payloads
as decoded strings. -/
inductive FastBootResponse
  | Okay (s : Str)
  | Info (s : Str)
  | Fail (s : Str)
  | Data (n : Nat)
deriving DecidableEq

/-- Rust `enum FastBootCommand` of protocol.rs. -/
inductive FastBootCommand
  | GetVar (s : Str)
  | Download (n : Nat)
  | Verify (n : Nat)
  | Flash (s : Str)
  | Erase (s : Str)
  | Boot
  | Continue
  | Reboot
  | RebootBootloader
  | Powerdown
deriving DecidableEq

/-- One lowercase hex digit character. -/
def hexChar (d : Nat) : Char :=
  if d < 10 then Char.ofNat (0x30 + d) else Char.ofNat (0x61 + (d - 10))

/-- Rust `{:08x}` of a u32: exactly 8 lowercase hex digits,
most-significant first. -/
def hex8 (n : Nat) : Str :=
  ((List.range 8).reverse).map (fun i => hexChar (n / 16 ^ i % 16))

/-- The `Display` impl of `FastBootCommand`: the ASCII command line. -/
def renderCommand : FastBootCommand → Str
  | .GetVar v => ("getvar:").toList ++ v
  | .Download n => ("download:").toList ++ hex8 n
  | .Verify p => ("verity:").toList ++ Nat.toDigits 10 p
  | .Flash p => ("flash:").toList ++ p
  | .Erase p => ("erase:").toList ++ p
  | .Boot => ("boot").toList
  | .Continue => ("continue").toList
  | .Reboot => ("reboot").toList
  | .RebootBootloader => ("reboot-bootloader").toList
  | .Powerdown => ("powerdown").toList

/-- Rust `Fastboot::send_command`: renders the command into the scratch buffer
and calls `write_out`, whose successful byte count is discarded
(`self.ops.write_out(&mut self.buf).await?; Ok(())`).  `writeResult` is
what the transport's `write_out` returned for the rendered line. -/
def send_command (_cmd : FastBootCommand)
    (writeResult : Except FastBootError Nat) : Except FastBootError PUnit :=
  match writeResult with
  | .error e => .error e
  | .ok _n => .ok PUnit.unit

/-- Rust `Fastboot::handle_responses` run against the list of responses the
device produces: `Info` is discarded and the loop continues; `Data` is an
unexpected reply; `Okay` returns its payload; `Fail` returns the device's
reason.  `none` means the response list ran out with no terminal response
(outside the claims' well-formed sequences). -/
def handle_responses : List FastBootResponse → Option (Except FastBootError Str)
  | [] => none
  | r :: rest =>
    match r with
    | .Info _ => handle_responses rest
    | .Data _ => some (.error .FastbootUnexpectedReply)
    | .Okay v => some (.ok v)
    | .Fail f => some (.error (.FastbootFailed f))

/-- Rust `Fastboot::execute`: send the command, then run `handle_responses` on
the device's responses. -/
def execute (_cmd : FastBootCommand) (responses : List FastBootResponse) :
    Option (Except FastBootError Str) :=
  handle_responses responses

/-- Rust `Fastboot::get_var`. -/
def get_var (var : Str) (responses : List FastBootResponse) :
    Option (Except FastBootError Str) :=
  execute (FastBootCommand.GetVar var) responses

/-- The `Info` accumulator of `Fastboot::download`: `info = Some(s + &i)`
if already present, else `Some(i)`. -/
def accInfo (acc : Option Str) (i : Str) : Option Str :=
  match acc with
  | some s => some (s ++ i)
  | none => some i

/-- The response loop of `Fastboot::download`. -/
def downloadLoop : Option Str → List FastBootResponse →
    Option (Except FastBootError (Option Str))
  | _, [] => none
  | info, r :: rest =>
    match r with
    | .Info i => downloadLoop (accInfo info i) rest
    | .Data _ => some (.ok info)
    | .Okay _ => some (.error .FastbootUnexpectedReply)
    | .Fail f => some (.error (.FastbootFailed f))

/-- Rust `Fastboot::download`: send `Download(size)` and run the loop with no
info accumulated yet. -/
def download (_size : Nat) (responses : List FastBootResponse) :
    Option (Except FastBootError (Option Str)) :=
  downloadLoop none responses

/-- Concatenation of the `Info` payloads of a download, `none` when there
were none. -/
def joinInfo (infos : List Str) : Option Str :=
  match infos with
  | [] => none
  | _ => some infos.flatten

/-- Rust `str::rsplit_once(c)`: split at the last occurrence of `c`, returning
the parts before and after it. -/
def rsplitOnce (c : Char) : List Char → Option (List Char × List Char)
  | [] => none
  | x :: xs =>
    match rsplitOnce c xs with
    | some (a, b) => some (x :: a, b)
    | none => if x = c then some ([], xs) else none

/-- The characters with the Unicode `White_Space` property, which is what
Rust `char::is_whitespace` (and hence `str::trim`) tests. -/
def isRustWhitespace (c : Char) : Bool :=
  [0x09, 0x0A, 0x0B, 0x0C, 0x0D, 0x20, 0x85, 0xA0, 0x1680,
   0x2000, 0x2001, 0x2002, 0x2003, 0x2004, 0x2005, 0x2006, 0x2007,
   0x2008, 0x2009, 0x200A, 0x2028, 0x2029, 0x202F, 0x205F, 0x3000].contains c.toNat

/-- Rust `str::trim`: drop whitespace from both ends. -/
def trimChars (s : Str) : Str :=
  ((s.dropWhile isRustWhitespace).reverse.dropWhile isRustWhitespace).reverse

/-- The variable mapping accumulated by `get_all_vars`, modelled as an
association list whose `insert` replaces any existing binding of the key
(the observable behaviour of `HashMap::insert`). -/
def mapInsert (vars : List (Str × Str)) (k v : Str) : List (Str × Str) :=
  (vars.filter (fun p => !(p.1 == k))) ++ [(k, v)]

/-- Lookup in the accumulated variable mapping. -/
def varsLookup (vars : List (Str × Str)) (k : Str) : Option Str :=
  (vars.find? (fun p => p.1 == k)).map (fun p => p.2)

/-- The `Info` handler of `get_all_vars`: split the line at its last colon;
a line with no colon is only warned about and skipped; otherwise both
parts are trimmed and inserted. -/
def insertVar (vars : List (Str × Str)) (i : Str) : List (Str × Str) :=
  match rsplitOnce ':' i with
  | none => vars
  | some (key, value) => mapInsert vars (trimChars key) (trimChars value)

/-- The response loop of `Fastboot::get_all_vars`. -/
def getAllVarsLoop (vars : List (Str × Str)) : List FastBootResponse →
    Option (Except FastBootError (List (Str × Str)))
  | [] => none
  | r :: rest =>
    match r with
    | .Info i => getAllVarsLoop (insertVar vars i) rest
    | .Data _ => some (.error .FastbootUnexpectedReply)
    | .Okay _ => some (.ok vars)
    | .Fail f => some (.error (.FastbootFailed f))

/-- Rust `Fastboot::get_all_vars`: send `GetVar("all")` and run the loop with an
empty mapping. -/
def get_all_vars (responses : List FastBootResponse) :
    Option (Except FastBootError (List (Str × Str))) :=
  getAllVarsLoop [] responses

end Session

end Fastboot

/-! ## Wire-codec lemmas and claims C3–C6 -/

namespace Fastboot

namespace Protocol

/-- Running `findIdx?` with a shifted start index returns the shifted result. -/
theorem findIdx?_shift (p : Nat → Bool) (l : List Nat) :
    ∀ i, l.findIdx? p i = (l.findIdx? p 0).map (fun j => j + i) := by
  induction l with
  | nil => intro i; simp
  | cons x xs ih =>
    intro i
    rw [List.findIdx?_cons, List.findIdx?_cons]
    cases hx : p x with
    | true => simp
    | false =>
      simp only [Bool.false_eq_true, if_false]
      rw [ih (i + 1), ih 1, Option.map_map]
      cases xs.findIdx? p 0 with
      | none => simp
      | some j =>
        simp only [Option.map_some', Option.some.injEq, Function.comp]
        omega

/-- Lemma: `bytes_slice_null` is truncation at the first null byte. -/
theorem bytes_slice_null_eq_takeWhile (l : List Nat) :
    bytes_slice_null l = l.takeWhile (fun b => !(b == 0)) := by
  induction l with
  | nil => rfl
  | cons b l ih =>
    by_cases hb : b = 0
    · subst hb
      simp [bytes_slice_null, List.findIdx?_cons]
    · have hb' : (b == 0) = false := by simp [hb]
      rw [bytes_slice_null, List.findIdx?_cons, hb']
      simp only [Bool.false_eq_true, if_false, List.takeWhile_cons, hb',
        Bool.not_false, if_true]
      rw [findIdx?_shift (fun b => b == 0) l 1]
      rw [bytes_slice_null] at ih
      cases hf : l.findIdx? (fun b => b == 0) 0 with
      | some pos =>
        rw [hf] at ih
        simp only [Option.map_some']
        rw [List.take_succ_cons]
        exact congrArg (b :: ·) ih
      | none =>
        rw [hf] at ih
        simp only [Option.map_none']
        exact congrArg (b :: ·) ih

/-- Truncating at the first null twice is the same as doing it once. -/
theorem bytes_slice_null_idem (l : List Nat) :
    bytes_slice_null (bytes_slice_null l) = bytes_slice_null l := by
  rw [bytes_slice_null_eq_takeWhile, bytes_slice_null_eq_takeWhile,
    List.takeWhile_idem]

/-- Decoding a frame built from a 4-byte tag and a payload only ever looks at
the payload up to its first null byte. -/
theorem from_bytes_append (tag rest : List Nat) (hlen : tag.length = 4) :
    from_bytes (tag ++ rest) = from_bytes (tag ++ bytes_slice_null rest) := by
  have h1 : ¬(tag ++ rest).length < 4 := by
    rw [List.length_append, hlen]; omega
  have h2 : ¬(tag ++ bytes_slice_null rest).length < 4 := by
    rw [List.length_append, hlen]; omega
  simp only [from_bytes]
  rw [if_neg h1, if_neg h2, List.take_left' hlen, List.take_left' hlen,
    List.drop_left' hlen, List.drop_left' hlen, bytes_slice_null_idem]

/-- An unknown tag makes `from_parts` fail with `UnknownReply`. -/
theorem from_parts_unknown (t data : List Nat) (h : t ∉ tagList) :
    from_parts t data = .error .UnknownReply := by
  simp only [tagList, List.mem_cons, List.not_mem_nil, or_false, not_or] at h
  obtain ⟨h1, h2, h3, h4⟩ := h
  simp only [from_parts]
  rw [if_neg h1, if_neg h2, if_neg h3, if_neg h4]

/-- A recognised tag never makes `from_parts` fail with `UnknownReply`. -/
theorem from_parts_known (t data : List Nat) (h : t ∈ tagList) :
    from_parts t data ≠ .error .UnknownReply := by
  simp only [tagList, List.mem_cons, List.not_mem_nil, or_false] at h
  rcases h with h | h | h | h <;> subst h <;>
    simp [from_parts, tagOKAY, tagINFO, tagFAIL, tagDATA] <;>
    split <;> simp

end Protocol

/-- C3: for every response frame whose first 4 bytes are one of the tags
OKAY, INFO, FAIL, DATA and whose remaining bytes contain a null byte,
decoding yields the same result as decoding the frame truncated just before
its first null payload byte (everything from the first null onward removed),
independent of which of the four tags is present. -/
theorem from_bytes_null_truncation (tag rest : List Nat)
    (htag : tag ∈ Protocol.tagList) (_hnull : (0 : Nat) ∈ rest) :
    Protocol.from_bytes (tag ++ rest) =
      Protocol.from_bytes (tag ++ Protocol.bytes_slice_null rest) := by
  have hlen : tag.length = 4 := by
    simp only [Protocol.tagList, List.mem_cons, List.not_mem_nil, or_false] at htag
    rcases htag with h | h | h | h <;> subst h <;> rfl
  exact Protocol.from_bytes_append tag rest hlen

/-- Witness for C3 at the concrete frame `"OKAYte\x00xx"`. -/
theorem from_bytes_null_truncation_witness :
    Protocol.from_bytes (Protocol.tagOKAY ++ [0x74, 0x65, 0x00, 0x78, 0x78]) =
      Protocol.from_bytes
        (Protocol.tagOKAY ++ Protocol.bytes_slice_null [0x74, 0x65, 0x00, 0x78, 0x78]) :=
  from_bytes_null_truncation Protocol.tagOKAY [0x74, 0x65, 0x00, 0x78, 0x78]
    (by decide) (by decide)

namespace Protocol

/-- The accumulator never decreases along the hex fold. -/
theorem hexValueFrom_le (s : List Nat) : ∀ acc, acc ≤ hexValueFrom acc s := by
  induction s with
  | nil => intro acc; simp [hexValueFrom]
  | cons b rest ih =>
    intro acc
    have hstep : hexValueFrom acc (b :: rest) =
        hexValueFrom (acc * 16 + (hexDigitVal b).getD 0) rest := rfl
    rw [hstep]
    exact le_trans (by omega) (ih (acc * 16 + (hexDigitVal b).getD 0))

/-- The step-checked digit loop of `from_str_radix` succeeds exactly when
all bytes are hex digits and the final mathematical value fits in u32. -/
theorem parseHexLoop_spec (s : List Nat) : ∀ acc, acc < 2 ^ 32 →
    parseHexLoop s acc =
      if (s.all isHexDigitByte && decide (hexValueFrom acc s < 2 ^ 32)) = true
      then some (hexValueFrom acc s) else none := by
  induction s with
  | nil =>
    intro acc hacc
    simp [parseHexLoop, hexValueFrom]
    omega
  | cons b rest ih =>
    intro acc hacc
    have hstep : hexValueFrom acc (b :: rest) =
        hexValueFrom (acc * 16 + (hexDigitVal b).getD 0) rest := rfl
    cases hd : hexDigitVal b with
    | none =>
      have hb : isHexDigitByte b = false := by simp [isHexDigitByte, hd]
      simp [parseHexLoop, hd, hb]
    | some d =>
      have hb : isHexDigitByte b = true := by simp [isHexDigitByte, hd]
      have hfold : hexValueFrom acc (b :: rest) = hexValueFrom (acc * 16 + d) rest := by
        simp [hstep, hd]
      simp only [parseHexLoop, hd]
      by_cases hlt : acc * 16 + d < 2 ^ 32
      · rw [if_pos hlt, ih _ hlt]
        simp [hb, hfold]
      · rw [if_neg hlt]
        have hge : ¬hexValueFrom acc (b :: rest) < 2 ^ 32 := by
          rw [hfold]
          have := hexValueFrom_le rest (acc * 16 + d)
          omega
        have hcond : ((b :: rest).all isHexDigitByte &&
            decide (hexValueFrom acc (b :: rest) < 2 ^ 32)) = false := by
          rw [decide_eq_false hge]
          simp
        rw [hcond]
        simp

/-- The digit loop on a nonempty digit string, phrased with the spec-side
hex predicate. -/
theorem parseHex_nonempty (s : List Nat) (hs : s ≠ []) :
    parseHexLoop s 0 =
      if isHexU32 s = true then some (hexValue s) else none := by
  rw [parseHexLoop_spec s 0 (by norm_num)]
  have hempty : s.isEmpty = false := by
    cases s with
    | nil => exact absurd rfl hs
    | cons x xs => rfl
  simp [isHexU32, hexValue, hempty]

/-- Rust `u32::from_str_radix(s, 16)` succeeds exactly when the string, after an
optional leading `+`, is a nonempty hex-digit run whose value fits in u32,
and then returns that value. -/
theorem from_str_radix_16_spec (s : List Nat) :
    from_str_radix_16_u32 s =
      if isHexU32 (stripPlus s) = true then some (hexValue (stripPlus s)) else none := by
  rcases s with _ | ⟨b, _ | ⟨c, rest⟩⟩
  · simp [from_str_radix_16_u32, stripPlus, isHexU32]
  · by_cases hb : b = 0x2B
    · subst hb; decide
    · by_cases hbm : b = 0x2D
      · subst hbm; decide
      · have hor : ¬(b = 0x2B ∨ b = 0x2D) := by tauto
        simp only [from_str_radix_16_u32]
        rw [if_neg hor]
        have hsp : stripPlus [b] = [b] := by simp [stripPlus, hb]
        rw [hsp]
        exact parseHex_nonempty [b] (by simp)
  · simp only [from_str_radix_16_u32]
    by_cases hb : b = 0x2B
    · subst hb
      rw [if_pos rfl]
      have hsp : stripPlus (0x2B :: c :: rest) = c :: rest := by simp [stripPlus]
      rw [hsp]
      exact parseHex_nonempty (c :: rest) (by simp)
    · rw [if_neg hb]
      have hsp : stripPlus (b :: c :: rest) = b :: c :: rest := by simp [stripPlus, hb]
      rw [hsp]
      exact parseHex_nonempty (b :: c :: rest) (by simp)

end Protocol

/-- C4 (amended): decoding a `DATA`-tagged response succeeds iff the
payload, after an optional leading `+` sign (which Rust's
`u32::from_str_radix` accepts), is a nonempty run of hex digits whose value
fits in 32 bits, in which case it returns `Data` of the parsed value; any
other payload fails with the `DataLength` error. -/
theorem data_hex_decode_amended (data : List Nat) :
    (∀ n : Nat,
      Protocol.from_parts Protocol.tagDATA data = .ok (.Data n) ↔
        (Protocol.isHexU32 (Protocol.stripPlus data) = true ∧
         n = Protocol.hexValue (Protocol.stripPlus data)))
    ∧ (Protocol.isHexU32 (Protocol.stripPlus data) = false →
        Protocol.from_parts Protocol.tagDATA data = .error .DataLength) := by
  have hfp : Protocol.from_parts Protocol.tagDATA data =
      (match Protocol.from_str_radix_16_u32 data with
       | some n => .ok (.Data n)
       | none => .error .DataLength) := by
    simp [Protocol.from_parts, Protocol.tagDATA, Protocol.tagOKAY,
      Protocol.tagINFO, Protocol.tagFAIL]
  constructor
  · intro n
    rw [hfp, Protocol.from_str_radix_16_spec]
    by_cases h : Protocol.isHexU32 (Protocol.stripPlus data) = true
    · rw [if_pos h]
      simp [h, eq_comm]
    · rw [if_neg h]
      simp [h]
  · intro h
    rw [hfp, Protocol.from_str_radix_16_spec, if_neg (by simp [h])]

/-- Counterexample to C4 as stated: the frame `"DATA+0"` decodes
successfully to `Data 0` although its payload `"+0"` is not a hexadecimal
digit string (so by the claim it should have failed with `DataLength`). -/
theorem data_hex_plus_counterexample :
    Protocol.from_bytes (Protocol.tagDATA ++ [0x2B, 0x30]) =
      Protocol.DecodeResult.ok (.Data 0) ∧
    Protocol.isHexU32 [0x2B, 0x30] = false := by decide

/-- Witness for C4 (amended) at the claim's own examples: payload
`"zzzz"` fails with `DataLength` and payload `"00123456"` parses to
`Data 0x123456`. -/
theorem data_hex_decode_amended_witness :
    Protocol.from_parts Protocol.tagDATA [0x7A, 0x7A, 0x7A, 0x7A] =
      .error .DataLength ∧
    Protocol.from_parts Protocol.tagDATA
        [0x30, 0x30, 0x31, 0x32, 0x33, 0x34, 0x35, 0x36] = .ok (.Data 0x123456) :=
  ⟨(data_hex_decode_amended [0x7A, 0x7A, 0x7A, 0x7A]).2 (by decide),
   ((data_hex_decode_amended [0x30, 0x30, 0x31, 0x32, 0x33, 0x34, 0x35, 0x36]).1
      0x123456).mpr (by decide)⟩

/-- C5 (amended): `from_bytes` fails with `UnknownReply` for every input
shorter than 4 bytes, and for every input of at least 4 bytes whose two
UTF-8 conversions succeed and whose first 4 bytes are not one of the four
tags; conversely `UnknownReply` only arises for inputs that are short or
carry an unrecognised tag.  (As stated the claim is false: an
unrecognised tag that is not valid UTF-8 makes `from_bytes` panic instead,
see the counterexample.) -/
theorem unknown_reply_amended :
    (∀ bytes : List Nat, bytes.length < 4 →
      Protocol.from_bytes bytes = .err .UnknownReply)
    ∧ (∀ bytes : List Nat, 4 ≤ bytes.length →
        Protocol.utf8Valid (bytes.take 4) = true →
        Protocol.utf8Valid (Protocol.bytes_slice_null (bytes.drop 4)) = true →
        bytes.take 4 ∉ Protocol.tagList →
        Protocol.from_bytes bytes = .err .UnknownReply)
    ∧ (∀ bytes : List Nat, Protocol.from_bytes bytes = .err .UnknownReply →
        bytes.length < 4 ∨ bytes.take 4 ∉ Protocol.tagList) := by
  refine ⟨fun bytes h => ?_, fun bytes h4 h1 h2 hmem => ?_, fun bytes h => ?_⟩
  · simp [Protocol.from_bytes, h]
  · simp only [Protocol.from_bytes]
    rw [if_neg (by omega), h1, h2, if_pos (by simp)]
    rw [Protocol.from_parts_unknown (bytes.take 4) _ hmem]
  · by_contra hc
    push_neg at hc
    obtain ⟨hlen, hmem⟩ := hc
    simp only [Protocol.from_bytes] at h
    rw [if_neg (by omega)] at h
    by_cases hu : (Protocol.utf8Valid (bytes.take 4) &&
        Protocol.utf8Valid (Protocol.bytes_slice_null (bytes.drop 4))) = true
    · rw [if_pos hu] at h
      have hne := Protocol.from_parts_known (bytes.take 4)
        (Protocol.bytes_slice_null (bytes.drop 4)) hmem
      cases hfp : Protocol.from_parts (bytes.take 4)
          (Protocol.bytes_slice_null (bytes.drop 4)) with
      | ok r => rw [hfp] at h; exact Protocol.DecodeResult.noConfusion h
      | error e =>
        rw [hfp] at h
        cases h
        exact hne hfp
    · rw [if_neg hu] at h
      exact Protocol.DecodeResult.noConfusion h

/-- Counterexample to C5 as stated: 4 bytes that are not a recognised tag
but also not valid UTF-8 make `from_bytes` panic on the `unwrap` rather
than return `UnknownReply`. -/
theorem unknown_reply_panic_counterexample :
    Protocol.from_bytes [0xFF, 0xFE, 0xFD, 0xFC] ≠
      Protocol.DecodeResult.err .UnknownReply ∧
    Protocol.from_bytes [0xFF, 0xFE, 0xFD, 0xFC] = Protocol.DecodeResult.panicked ∧
    ([0xFF, 0xFE, 0xFD, 0xFC] : List Nat).take 4 ∉ Protocol.tagList := by decide

/-- Witness for C5 (amended): a 2-byte input and the unknown ASCII tag
`"FOOO"` both fail with `UnknownReply`. -/
theorem unknown_reply_amended_witness :
    Protocol.from_bytes [0x55, 0x4E] = .err .UnknownReply ∧
    Protocol.from_bytes [0x46, 0x4F, 0x4F, 0x4F] = .err .UnknownReply :=
  ⟨unknown_reply_amended.1 [0x55, 0x4E] (by decide),
   unknown_reply_amended.2.1 [0x46, 0x4F, 0x4F, 0x4F] (by decide) (by decide)
     (by decide) (by decide)⟩

/-- C6 (amended): whenever the two regions `from_bytes` converts from UTF-8
(the 4-byte tag and the null-truncated payload) are valid UTF-8, decoding
is total: it returns a parsed response or a parse error and never panics.
As a pure function of its input bytes it has no side effects.  (As stated
— for arbitrary byte sequences — the claim is false, see the
counterexample: the `unwrap` calls panic on invalid UTF-8.) -/
theorem from_bytes_no_panic_amended (bytes : List Nat)
    (h1 : Protocol.utf8Valid (bytes.take 4) = true)
    (h2 : Protocol.utf8Valid (Protocol.bytes_slice_null (bytes.drop 4)) = true) :
    Protocol.from_bytes bytes ≠ Protocol.DecodeResult.panicked := by
  simp only [Protocol.from_bytes]
  by_cases h4 : bytes.length < 4
  · rw [if_pos h4]
    exact fun hc => Protocol.DecodeResult.noConfusion hc
  · rw [if_neg h4, h1, h2, if_pos (by simp)]
    split
    · exact fun hc => Protocol.DecodeResult.noConfusion hc
    · exact fun hc => Protocol.DecodeResult.noConfusion hc

/-- Counterexample to C6 as stated: on the 4-byte input `FF FF FF FF`
(not valid UTF-8) `from_bytes` panics instead of returning a response or
parse error. -/
theorem from_bytes_panic_counterexample :
    Protocol.from_bytes [0xFF, 0xFF, 0xFF, 0xFF] = Protocol.DecodeResult.panicked := by
  decide

/-- Witness for C6 (amended) at the concrete frame `"OKAYhi"`. -/
theorem from_bytes_no_panic_amended_witness :
    Protocol.from_bytes [0x4F, 0x4B, 0x41, 0x59, 0x68, 0x69] ≠
      Protocol.DecodeResult.panicked :=
  from_bytes_no_panic_amended [0x4F, 0x4B, 0x41, 0x59, 0x68, 0x69]
    (by decide) (by decide)

end Fastboot

/-! ## Client-session lemmas and claims C7–C10 -/

namespace Fastboot

namespace Session

/-- Lemma: `handle_responses` ignores any prefix of `Info` responses. -/
theorem handle_responses_infos (infos : List Str) :
    ∀ rs, handle_responses (infos.map .Info ++ rs) = handle_responses rs := by
  induction infos with
  | nil => intro rs; rfl
  | cons i tl ih => intro rs; exact ih rs

/-- Lemma: `downloadLoop` folds a prefix of `Info` responses into the accumulator. -/
theorem downloadLoop_infos (infos : List Str) :
    ∀ acc rs, downloadLoop acc (infos.map .Info ++ rs) =
      downloadLoop (infos.foldl accInfo acc) rs := by
  induction infos with
  | nil => intro acc rs; rfl
  | cons i tl ih => intro acc rs; exact ih (accInfo acc i) rs

/-- Folding `accInfo` over info lines starting from an already-present
string appends their concatenation. -/
theorem foldl_accInfo_some (infos : List Str) :
    ∀ s : Str, infos.foldl accInfo (some s) = some (s ++ infos.flatten) := by
  induction infos with
  | nil => intro s; simp [accInfo]
  | cons i tl ih =>
    intro s
    simp only [List.foldl_cons, accInfo, List.flatten_cons, ih (s ++ i),
      List.append_assoc]

/-- Folding `accInfo` over info lines from `none` yields `joinInfo`. -/
theorem foldl_accInfo_none (infos : List Str) :
    infos.foldl accInfo none = joinInfo infos := by
  cases infos with
  | nil => rfl
  | cons i tl =>
    simp only [List.foldl_cons, joinInfo, List.flatten_cons]
    exact foldl_accInfo_some tl i

/-- Lemma: `getAllVarsLoop` folds a prefix of `Info` responses into the mapping. -/
theorem getAllVarsLoop_infos (infos : List Str) :
    ∀ vars rs, getAllVarsLoop vars (infos.map .Info ++ rs) =
      getAllVarsLoop (infos.foldl insertVar vars) rs := by
  induction infos with
  | nil => intro vars rs; rfl
  | cons i tl ih => intro vars rs; exact ih (insertVar vars i) rs

/-- After `mapInsert`, looking the key up finds the new value (the
"later duplicate keys overwrite earlier ones" behaviour). -/
theorem varsLookup_mapInsert (vars : List (Str × Str)) (k v : Str) :
    varsLookup (mapInsert vars k v) k = some v := by
  have hfind : ∀ l : List (Str × Str),
      (l.filter (fun p => !(p.1 == k))).find? (fun p => p.1 == k) = none := by
    intro l
    induction l with
    | nil => rfl
    | cons p tl ih =>
      by_cases hp : (p.1 == k) = true
      · simp [List.filter_cons, hp, ih]
      · have hp' : (p.1 == k) = false := by
          cases hpk : (p.1 == k)
          · rfl
          · exact absurd hpk hp
        simp [List.filter_cons, hp', List.find?_cons, ih]
  simp only [varsLookup, mapInsert, List.find?_append, hfind vars,
    Option.none_or]
  simp [List.find?_cons]

end Session

/-- C9: `get_var` returns the payload of the first `Okay` response, silently
skipping any number of preceding `Info` responses (no accumulation); a
`Data` response during `get_var` is the unexpected-reply error and a `Fail`
response is the device-reported failure carrying its reason. -/
theorem get_var_skips_info :
    (∀ (var : Session.Str) (infos : List Session.Str) (v : Session.Str)
       (rest : List Session.FastBootResponse),
      Session.get_var var (infos.map .Info ++ .Okay v :: rest) = some (.ok v))
    ∧ (∀ (var : Session.Str) (infos : List Session.Str) (n : Nat)
         (rest : List Session.FastBootResponse),
        Session.get_var var (infos.map .Info ++ .Data n :: rest) =
          some (.error .FastbootUnexpectedReply))
    ∧ (∀ (var : Session.Str) (infos : List Session.Str) (f : Session.Str)
         (rest : List Session.FastBootResponse),
        Session.get_var var (infos.map .Info ++ .Fail f :: rest) =
          some (.error (.FastbootFailed f))) := by
  refine ⟨fun var infos v rest => ?_, fun var infos n rest => ?_,
    fun var infos f rest => ?_⟩ <;>
    rw [Session.get_var, Session.execute, Session.handle_responses_infos] <;>
    rfl

/-- C7: `download` concatenates all `Info` payloads in arrival order with no
separator into an optional informational string and returns it on the
`Data` response; an `Okay` at this stage is the unexpected-reply error and
a `Fail` is the device-reported failure carrying its reason. -/
theorem download_info_concat :
    (∀ (size : Nat) (infos : List Session.Str) (n : Nat)
       (rest : List Session.FastBootResponse),
      Session.download size (infos.map .Info ++ .Data n :: rest) =
        some (.ok (Session.joinInfo infos)))
    ∧ (∀ (size : Nat) (infos : List Session.Str) (v : Session.Str)
         (rest : List Session.FastBootResponse),
        Session.download size (infos.map .Info ++ .Okay v :: rest) =
          some (.error .FastbootUnexpectedReply))
    ∧ (∀ (size : Nat) (infos : List Session.Str) (f : Session.Str)
         (rest : List Session.FastBootResponse),
        Session.download size (infos.map .Info ++ .Fail f :: rest) =
          some (.error (.FastbootFailed f))) := by
  refine ⟨fun size infos n rest => ?_, fun size infos v rest => ?_,
    fun size infos f rest => ?_⟩ <;>
    rw [Session.download, Session.downloadLoop_infos,
      Session.foldl_accInfo_none] <;>
    rfl

/-- C8: `get_all_vars` splits each `Info` payload at its last colon, trims
both parts, and inserts them into the mapping (later duplicates
overwriting); no-colon lines are skipped without aborting; the loop returns
the mapping on `Okay`, the unexpected-reply error on `Data`, and the
device-reported reason on `Fail`. -/
theorem get_all_vars_spec :
    (∀ (infos : List Session.Str) (v : Session.Str)
       (rest : List Session.FastBootResponse),
      Session.get_all_vars (infos.map .Info ++ .Okay v :: rest) =
        some (.ok (infos.foldl Session.insertVar [])))
    ∧ (∀ (vars : List (Session.Str × Session.Str)) (i : Session.Str),
        Session.rsplitOnce ':' i = none →
        Session.insertVar vars i = vars)
    ∧ (∀ (vars : List (Session.Str × Session.Str)) (i k val : Session.Str),
        Session.rsplitOnce ':' i = some (k, val) →
        Session.insertVar vars i =
          Session.mapInsert vars (Session.trimChars k) (Session.trimChars val))
    ∧ (∀ (vars : List (Session.Str × Session.Str)) (k v : Session.Str),
        Session.varsLookup (Session.mapInsert vars k v) k = some v)
    ∧ (∀ (infos : List Session.Str) (n : Nat)
         (rest : List Session.FastBootResponse),
        Session.get_all_vars (infos.map .Info ++ .Data n :: rest) =
          some (.error .FastbootUnexpectedReply))
    ∧ (∀ (infos : List Session.Str) (f : Session.Str)
         (rest : List Session.FastBootResponse),
        Session.get_all_vars (infos.map .Info ++ .Fail f :: rest) =
          some (.error (.FastbootFailed f))) := by
  refine ⟨fun infos v rest => ?_, fun vars i h => ?_, fun vars i k val h => ?_,
    Session.varsLookup_mapInsert, fun infos n rest => ?_, fun infos f rest => ?_⟩
  · rw [Session.get_all_vars, Session.getAllVarsLoop_infos]; rfl
  · rw [Session.insertVar, h]
  · rw [Session.insertVar, h]
  · rw [Session.get_all_vars, Session.getAllVarsLoop_infos]; rfl
  · rw [Session.get_all_vars, Session.getAllVarsLoop_infos]; rfl

/-- Witness for C8 at the claim's scenario: the no-colon line is skipped,
the `"version: 1.0"` line inserts key `"version"` with trimmed value
`"1.0"`, and the full scenario yields exactly the two expected pairs. -/
theorem get_all_vars_spec_witness :
    Session.insertVar [] (("malformed-no-colon").toList) = [] ∧
    Session.insertVar [] (("version: 1.0").toList) =
      [(("version").toList, ("1.0").toList)] ∧
    Session.get_all_vars
        [.Info ("version: 1.0").toList, .Info ("malformed-no-colon").toList,
         .Info ("max-download-size: 0x20000000").toList, .Okay []] =
      some (.ok [(("version").toList, ("1.0").toList),
                 (("max-download-size").toList, ("0x20000000").toList)]) := by
  refine ⟨get_all_vars_spec.2.1 [] _ (by decide), ?_, ?_⟩
  · rw [get_all_vars_spec.2.2.1 [] (("version: 1.0").toList)
      (("version").toList) ((" 1.0").toList) (by decide)]
    decide
  · have h := get_all_vars_spec.1
      [("version: 1.0").toList, ("malformed-no-colon").toList,
       ("max-download-size: 0x20000000").toList] [] []
    simp only [List.map_cons, List.map_nil, List.cons_append,
      List.nil_append] at h
    rw [h]
    decide

end Fastboot

/-! ## Pipelined-uploader lemmas and claims C1–C2 -/

namespace Fastboot

namespace Uploader

/-- Popping the back commutes with pushing an element at the front. -/
theorem popBack_cons {α : Type} (a : α) (l : List α) (x : α) (l' : List α)
    (h : popBack l = some (x, l')) : popBack (a :: l) = some (x, a :: l') := by
  cases l with
  | nil => simp [popBack] at h
  | cons y rest =>
    simp only [popBack]
    rw [h]

/-- Lemma: `descRange r r` is the empty queue. -/
theorem descRange_self (r : Nat) : descRange r r = [] := by
  cases r with
  | zero => rfl
  | succ s =>
    simp only [descRange]
    rw [if_neg (by omega)]

/-- Pushing the next submission index at the front of the queue. -/
theorem descRange_cons (r s : Nat) (h : r ≤ s) :
    descRange r (s + 1) = s :: descRange r s := by
  simp only [descRange]
  rw [if_pos h]

/-- Length of the queue. -/
theorem descRange_length (r : Nat) : ∀ s, (descRange r s).length = s - r := by
  intro s
  induction s with
  | zero => simp [descRange]
  | succ s ih =>
    by_cases h : r ≤ s
    · rw [descRange_cons r s h, List.length_cons, ih]
      omega
    · simp only [descRange]
      rw [if_neg h]
      simp only [List.length_nil]
      omega

/-- Popping the back of a nonempty queue retires the oldest submission. -/
theorem descRange_popBack (r : Nat) : ∀ s, r < s →
    popBack (descRange r s) = some (r, descRange (r + 1) s) := by
  intro s
  induction s with
  | zero => intro h; omega
  | succ s ih =>
    intro h
    have hrs : r ≤ s := by omega
    rw [descRange_cons r s hrs]
    by_cases heq : r = s
    · subst heq
      rw [descRange_self, descRange_self (r + 1)]
      rfl
    · have hne := ih (by omega)
      rw [popBack_cons s (descRange r s) r (descRange (r + 1) s) hne,
        descRange_cons (r + 1) s (by omega)]

/-- Lemma: `ascRange` grows at the top end. -/
theorem ascRange_concat (n : Nat) : ∀ r, ascRange r (n + 1) = ascRange r n ++ [r + n] := by
  induction n with
  | zero => intro r; simp [ascRange]
  | succ n ih =>
    intro r
    have harith : r + 1 + n = r + (n + 1) := by omega
    show r :: ascRange (r + 1) (n + 1) = ascRange r (n + 1) ++ [r + (n + 1)]
    rw [ih (r + 1), harith]
    rfl

/-- Reversing the queue gives the retirement order: oldest first. -/
theorem descRange_reverse (r : Nat) : ∀ s, (descRange r s).reverse = ascRange r (s - r) := by
  intro s
  induction s with
  | zero => simp [descRange, ascRange]
  | succ s ih =>
    by_cases h : r ≤ s
    · rw [descRange_cons r s h]
      simp only [List.reverse_cons, ih]
      have h1 : s + 1 - r = (s - r) + 1 := by omega
      have h2 : r + (s - r) = s := by omega
      rw [h1, ascRange_concat, h2]
    · simp only [descRange]
      rw [if_neg h]
      have h0 : s + 1 - r = 0 := by omega
      rw [h0]
      rfl

/-- Unfolding the running byte total one transfer at a time. -/
theorem sumR_succ (reports : Nat → Nat) (r : Nat) :
    sumR reports (r + 1) = sumR reports r + reports r := by
  simp [sumR, List.range_succ]

/-- A leading zero-size read stops the loop at once. -/
theorem nzLen_nil : nzLen [] = 0 := rfl

/-- A nonzero read contributes one submitted chunk. -/
theorem nzLen_cons_nz (sz : Nat) (rest : List Nat) (h : sz ≠ 0) :
    nzLen (sz :: rest) = nzLen rest + 1 := by
  simp [nzLen, List.takeWhile_cons, h]

/-- Invariant of the main read/submit loop: started with `idx` chunks
submitted, `ret` of them retired (so the queue holds `idx - ret ≤ 4`
transfers) and the byte total of the retired ones, it ends having submitted
exactly the chunks up to the first zero-length read, with some `ret2`
oldest transfers retired, the total accounting them exactly, and its event
trace FIFO-valid within the window of 4. -/
theorem wosLoop_inv (reports : Nat → Nat) :
    ∀ (chunks : List Nat) (ret idx : Nat), ret ≤ idx → idx ≤ ret + 4 →
    ∃ ret2 evs,
      ret ≤ ret2 ∧ ret2 ≤ idx + nzLen chunks ∧ idx + nzLen chunks ≤ ret2 + 4 ∧
      wosLoop reports chunks idx (sumR reports ret) (descRange ret idx) =
        (sumR reports ret2, descRange ret2 (idx + nzLen chunks), evs) ∧
      (∀ tail, checkTrace (idx + nzLen chunks) ret2 tail = true →
        checkTrace idx ret (evs ++ tail) = true) := by
  intro chunks
  induction chunks with
  | nil =>
    intro ret idx h1 h2
    exact ⟨ret, [], le_refl ret, by simpa [nzLen_nil] using h1,
      by simpa [nzLen_nil] using h2, rfl, fun tail h => h⟩
  | cons sz rest ih =>
    intro ret idx h1 h2
    by_cases hsz : sz = 0
    · subst hsz
      refine ⟨ret, [], le_refl ret, ?_, ?_, ?_, fun tail h => h⟩
      · simpa [nzLen] using h1
      · simpa [nzLen] using h2
      · simp [wosLoop, nzLen]
    · have hnz : nzLen (sz :: rest) = nzLen rest + 1 := nzLen_cons_nz sz rest hsz
      have hlen : (descRange ret idx).length = idx - ret := descRange_length ret idx
      have harith : idx + nzLen (sz :: rest) = idx + 1 + nzLen rest := by
        rw [hnz]; omega
      by_cases hw : 3 < (descRange ret idx).length
      · have hridx : ret < idx := by omega
        have hpop : popBack (descRange ret idx) = some (ret, descRange (ret + 1) idx) :=
          descRange_popBack ret idx hridx
        obtain ⟨ret2, evs2, ha, hb, hc, heq, htr⟩ :=
          ih (ret + 1) (idx + 1) (by omega) (by omega)
        refine ⟨ret2, Ev.retire ret :: Ev.submit idx :: evs2,
          by omega, by omega, by omega, ?_, ?_⟩
        · simp only [wosLoop, if_neg hsz, if_pos hw, hpop]
          rw [← sumR_succ reports ret,
            ← descRange_cons (ret + 1) idx (by omega), heq, harith]
        · intro tail htail
          rw [harith] at htail
          have hrec := htr tail htail
          simp only [List.cons_append, checkTrace, Bool.and_eq_true,
            decide_eq_true_eq]
          exact ⟨⟨trivial, by omega⟩, ⟨trivial, by omega⟩, hrec⟩
      · obtain ⟨ret2, evs2, ha, hb, hc, heq, htr⟩ :=
          ih ret (idx + 1) (by omega) (by omega)
        refine ⟨ret2, Ev.submit idx :: evs2, by omega, by omega, by omega, ?_, ?_⟩
        · simp only [wosLoop, if_neg hsz, if_neg hw]
          rw [← descRange_cons ret idx h1, heq, harith]
        · intro tail htail
          rw [harith] at htail
          have hrec := htr tail htail
          simp only [List.cons_append, checkTrace, Bool.and_eq_true,
            decide_eq_true_eq]
          exact ⟨⟨trivial, by omega⟩, hrec⟩

/-- The drain loop retires the remaining `n` transfers oldest-first,
summing their byte counts. -/
theorem wosDrainList_spec (reports : Nat → Nat) :
    ∀ (n ret : Nat), ∃ evs,
      wosDrainList reports (sumR reports ret) (ascRange ret n) =
        (sumR reports (ret + n), evs) ∧
      checkTrace (ret + n) ret evs = true := by
  intro n
  induction n with
  | zero => intro ret; exact ⟨[], rfl, rfl⟩
  | succ n ih =>
    intro ret
    obtain ⟨evs2, heq, htr⟩ := ih (ret + 1)
    have harith : ret + 1 + n = ret + (n + 1) := by omega
    refine ⟨Ev.retire ret :: evs2, ?_, ?_⟩
    · simp only [ascRange, wosDrainList]
      rw [← sumR_succ reports ret, heq, harith]
    · rw [harith] at htr
      simp only [checkTrace, Bool.and_eq_true, decide_eq_true_eq]
      exact ⟨⟨trivial, by omega⟩, htr⟩

/-- One full run of `write_out_stream`: the returned total is the sum of
the reported byte counts of all submitted chunks, and the produced event
trace is FIFO-valid within the window of 4. -/
theorem write_out_stream_run (reports : Nat → Nat) (chunks : List Nat) :
    ∃ evs,
      write_out_stream reports chunks = (sumR reports (nzLen chunks), evs) ∧
      checkTrace 0 0 evs = true := by
  obtain ⟨ret2, evs1, ha, hb, hc, heq, htr⟩ :=
    wosLoop_inv reports chunks 0 0 (le_refl 0) (by omega)
  rw [Nat.zero_add] at hb hc heq
  simp only [Nat.zero_add] at htr
  obtain ⟨evs2, hdeq, hdtr⟩ := wosDrainList_spec reports (nzLen chunks - ret2) ret2
  have hsum : ret2 + (nzLen chunks - ret2) = nzLen chunks := by omega
  rw [hsum] at hdeq hdtr
  refine ⟨evs1 ++ evs2, ?_, ?_⟩
  · have h0 : wosLoop reports chunks 0 0 [] =
        (sumR reports ret2, descRange ret2 (nzLen chunks), evs1) := heq
    simp only [write_out_stream, h0, wosDrain]
    rw [descRange_reverse, hdeq]
  · exact htr evs2 hdtr

end Uploader

/-- C1: for every byte source and every transport whose chunk writes
succeed, `write_out_stream` returns the sum of the reported byte counts of
all chunks submitted from the source, reading chunks until the source's
zero-length read; in particular five 512-byte chunks over a transport that
reports exactly the bytes given total 2560. -/
theorem write_out_stream_total_bytes :
    (∀ (reports : Nat → Nat) (chunks : List Nat),
      (Uploader.write_out_stream reports chunks).1 =
        Uploader.sumR reports (Uploader.nzLen chunks))
    ∧ (Uploader.write_out_stream (fun _ => 512) [512, 512, 512, 512, 512]).1 = 2560 := by
  constructor
  · intro reports chunks
    obtain ⟨evs, heq, -⟩ := Uploader.write_out_stream_run reports chunks
    rw [heq]
  · decide

/-- C2: in every execution of `write_out_stream` the number of
submitted-but-not-yet-retired transfers never exceeds 4, and transfers are
retired in exactly the order they were submitted (strict FIFO, oldest
first), the oldest being awaited before a new chunk is submitted whenever
more than 3 are outstanding — stated as validity of the run's event trace
under `checkTrace`. -/
theorem write_out_stream_window_fifo (reports : Nat → Nat) (chunks : List Nat) :
    Uploader.checkTrace 0 0 (Uploader.write_out_stream reports chunks).2 = true := by
  obtain ⟨evs, heq, htr⟩ := Uploader.write_out_stream_run reports chunks
  rw [heq]
  exact htr

/-- C10: whenever the transport's `write_out` reports success with any byte
count `n` — in particular an `n` strictly smaller than the rendered command
line — `send_command` reports success: the byte count is discarded, so a
partial command-frame write is never detected or surfaced. -/
theorem send_command_ignores_count :
    (∀ (cmd : Session.FastBootCommand) (n : Nat),
      Session.send_command cmd (Except.ok n) = Except.ok PUnit.unit)
    ∧ (∃ (cmd : Session.FastBootCommand) (n : Nat),
        n < (Session.renderCommand cmd).length ∧
        Session.send_command cmd (Except.ok n) = Except.ok PUnit.unit) :=
  ⟨fun _cmd _n => rfl, ⟨.Boot, 0, by decide, rfl⟩⟩

end Fastboot
